import Mathlib

/-!
Verification of the notification scheduling engine of the note-to-self app
(`NotificationService`): the window sampler (`calculateNotificationTimes`),
the weighted selector (`selectNextMessage`), the quiet-hours adjuster
(`adjustForQuietHours`), the recurring nag planner (`scheduleRepeatingNag`)
and the scheduling orchestrator passes (`scheduleWisdomNotifications`,
`scheduleNagNotifications`, `cancelAllWisdomNotifications`,
`cancelAllNagNotifications`).

Embedding conventions:
* Instants are epoch milliseconds as `ℕ`.  JavaScript `Date` local-time
  accessors are modelled with a fixed zero timezone offset and no DST, so
  calendar days are the aligned blocks `[k * dayMs, (k+1) * dayMs)`:
  `getHours t = t / hourMs % 24`, `new Date(y, m, d)` (midnight of the day
  containing `t`) is `todayStart t = t / dayMs * dayMs`, and
  `setDate (getDate () + 1)` adds `dayMs`.
* `Math.random()` draws are injected as streams: the window sampler takes
  `offsets : ℕ → ℕ` (the value `Math.random() * windowMs` truncated by the
  `Date` constructor, one per attempt), and the selector takes the already
  multiplied draw `r : ℚ` (`Math.random() * totalWeight`).
* JavaScript numbers appearing in weights are modelled as `ℚ`
  (the novelty boost multiplies by `1.5 = 3/2`, which is exact in binary
  floating point, so `ℚ` is faithful for the values reached here).
* The external notifee sink is a list of pending trigger notifications;
  a throwing `await` is modelled with `Except`, the error value carrying
  the external state as it was at the moment of the throw.
-/

def hourMs : ℕ := 3600000

def dayMs : ℕ := 24 * hourMs

def minuteMs : ℕ := 60000

/-- `14 * 24 * 60 * 60 * 1000` from `isMessageNew` in StorageService. -/
def twoWeeksMs : ℕ := 14 * dayMs

structure Settings where
  notificationsEnabled : Bool
  dailyFrequency : ℕ
  startHour : ℕ
  endHour : ℕ
  minGapHours : ℕ
deriving DecidableEq, Repr

structure Message where
  id : String
  text : String
  weight : ℕ
  isNagMe : Bool
  nagIntervalMinutes : ℕ
  createdAt : ℕ
  lastShown : Option ℕ
deriving DecidableEq, Repr

/-- `time.getHours()` in the fixed-timezone model. -/
def getHours (t : ℕ) : ℕ := t / hourMs % 24

/-- `new Date(now.getFullYear(), now.getMonth(), now.getDate())`:
midnight of the day containing `t`. -/
def todayStart (t : ℕ) : ℕ := t / dayMs * dayMs

/-- `d.setHours(h, 0, 0, 0)` for `h < 24`: `h:00` of the day containing `t`. -/
def atHour (t h : ℕ) : ℕ := todayStart t + h * hourMs

/--
`adjustForQuietHours(time, settings)`.  The source captures
`hour = time.getHours()` once and then runs two consecutive `if`
statements (not `else if`), each mutating `time` in place; the second
test still uses the originally captured `hour`.
-/
def adjustForQuietHours (s : Settings) (time : ℕ) : ℕ :=
  let hour := getHours time
  let time₁ := if hour < s.startHour then atHour time s.startHour else time
  if s.endHour ≤ hour then atHour time₁ s.startHour + dayMs else time₁

/-- The quiet-hours adjuster never moves an instant backward. -/
theorem le_adjustForQuietHours (s : Settings) (t : ℕ) :
    t ≤ adjustForQuietHours s t := by
  simp only [adjustForQuietHours, getHours, atHour, todayStart, dayMs, hourMs]
  split_ifs <;> omega

theorem adjustForQuietHours_cases (s : Settings) (t : ℕ)
    (hse : s.startHour < s.endHour) :
    (getHours t < s.startHour → adjustForQuietHours s t = atHour t s.startHour) ∧
    (s.endHour ≤ getHours t →
      adjustForQuietHours s t = atHour t s.startHour + dayMs) ∧
    (s.startHour ≤ getHours t → getHours t < s.endHour →
      adjustForQuietHours s t = t) := by
  simp only [adjustForQuietHours, getHours, atHour, todayStart, dayMs, hourMs]
  split_ifs <;> refine ⟨?_, ?_, ?_⟩ <;> intros <;> omega

/-- The adjuster's output always has hour-of-day in `[startHour, endHour)`. -/
theorem adjustForQuietHours_hour_mem (s : Settings) (t : ℕ)
    (hse : s.startHour < s.endHour) (he : s.endHour ≤ 24) :
    s.startHour ≤ getHours (adjustForQuietHours s t) ∧
      getHours (adjustForQuietHours s t) < s.endHour := by
  simp only [adjustForQuietHours, getHours, atHour, todayStart, dayMs, hourMs]
  split_ifs <;> constructor <;> omega

/-- C4: For valid settings (`startHour < endHour ≤ 24`) the quiet-hours
adjuster snaps an instant with hour-of-day below `startHour` to
`startHour:00` of the same day, snaps an instant with hour-of-day at or
past `endHour` to `startHour:00` of the next day, leaves instants inside
active hours unchanged, and is idempotent (applying it twice equals
applying it once). -/
theorem quiet_hours_adjuster_spec (s : Settings) (t : ℕ)
    (hse : s.startHour < s.endHour) (he : s.endHour ≤ 24) :
    (getHours t < s.startHour → adjustForQuietHours s t = atHour t s.startHour) ∧
    (s.endHour ≤ getHours t →
      adjustForQuietHours s t = atHour t s.startHour + dayMs) ∧
    (s.startHour ≤ getHours t → getHours t < s.endHour →
      adjustForQuietHours s t = t) ∧
    adjustForQuietHours s (adjustForQuietHours s t) = adjustForQuietHours s t := by
  obtain ⟨c1, c2, c3⟩ := adjustForQuietHours_cases s t hse
  refine ⟨c1, c2, c3, ?_⟩
  obtain ⟨hm1, hm2⟩ := adjustForQuietHours_hour_mem s t hse he
  exact (adjustForQuietHours_cases s (adjustForQuietHours s t) hse).2.2 hm1 hm2

/-- Witness for C4 at the spec's own example: settings `{startHour 8, endHour 22}`,
instants 03:00 and 23:00 of day zero. -/
theorem quiet_hours_adjuster_spec_witness :
    ((8 : ℕ) < 22 ∧ (22 : ℕ) ≤ 24) ∧
      (getHours (3 * hourMs) < 8 →
        adjustForQuietHours ⟨true, 3, 8, 22, 2⟩ (3 * hourMs) =
          atHour (3 * hourMs) 8) ∧
      adjustForQuietHours ⟨true, 3, 8, 22, 2⟩
          (adjustForQuietHours ⟨true, 3, 8, 22, 2⟩ (23 * hourMs)) =
        adjustForQuietHours ⟨true, 3, 8, 22, 2⟩ (23 * hourMs) := by
  refine ⟨⟨by decide, by decide⟩, ?_, ?_⟩
  · exact (quiet_hours_adjuster_spec ⟨true, 3, 8, 22, 2⟩ (3 * hourMs)
      (by decide) (by decide)).1
  · exact (quiet_hours_adjuster_spec ⟨true, 3, 8, 22, 2⟩ (23 * hourMs)
      (by decide) (by decide)).2.2.2

/--
The planning loop of `scheduleRepeatingNag`:
`while (currentTime < endTime) { push(currentTime);
 currentTime = adjustForQuietHours(currentTime + intervalMs) }`.
The loop is given as fuel-indexed recursion; for any interval of at least
one minute the fuel `nagFuel` is enough that the loop always exits through
its guard (proved in `nag_planner_terminates`).  For `intervalMs = 0` the
JavaScript loop diverges, and the model truncates instead.
-/
def nagLoop (s : Settings) (ivlMs endT : ℕ) : ℕ → ℕ → List ℕ
  | 0, _ => []
  | fuel + 1, current =>
    if current < endT then
      current :: nagLoop s ivlMs endT fuel (adjustForQuietHours s (current + ivlMs))
    else []

def nagFuel : ℕ := 1441

/-- The pure planning part of `scheduleRepeatingNag(message, settings)`:
the list `scheduledTimes` it builds before registering notifications. -/
def scheduleRepeatingNagTimes (m : Message) (s : Settings) (now : ℕ) : List ℕ :=
  let ivlMs := m.nagIntervalMinutes * minuteMs
  let nextTime := adjustForQuietHours s (now + ivlMs)
  nagLoop s ivlMs (now + dayMs) nagFuel nextTime

theorem nagLoop_stable (s : Settings) (ivlMs endT : ℕ) :
    ∀ fuel g current, fuel ≤ g → endT ≤ current + fuel * ivlMs →
      nagLoop s ivlMs endT g current = nagLoop s ivlMs endT fuel current := by
  intro fuel
  induction fuel with
  | zero =>
    intro g current _ hend
    match g with
    | 0 => rfl
    | g + 1 =>
      simp only [nagLoop]
      rw [if_neg (by omega)]
  | succ f ih =>
    intro g current hle hend
    match g with
    | 0 => omega
    | g + 1 =>
      simp only [nagLoop]
      have hexp : (f + 1) * ivlMs = f * ivlMs + ivlMs := Nat.succ_mul f ivlMs
      by_cases hc : current < endT
      · rw [if_pos hc, if_pos hc]
        have hadv : current + ivlMs ≤
            adjustForQuietHours s (current + ivlMs) :=
          le_adjustForQuietHours s (current + ivlMs)
        have hrec : endT ≤ adjustForQuietHours s (current + ivlMs) + f * ivlMs := by
          omega
        rw [ih g (adjustForQuietHours s (current + ivlMs)) (by omega) hrec]
      · rw [if_neg hc, if_neg hc]

theorem nagLoop_mem_lt (s : Settings) (ivlMs endT : ℕ) :
    ∀ fuel current t, t ∈ nagLoop s ivlMs endT fuel current → t < endT := by
  intro fuel
  induction fuel with
  | zero => intro current t ht; simp [nagLoop] at ht
  | succ f ih =>
    intro current t ht
    simp only [nagLoop] at ht
    by_cases hc : current < endT
    · rw [if_pos hc] at ht
      rcases List.mem_cons.mp ht with h | h
      · omega
      · exact ih _ _ h
    · rw [if_neg hc] at ht
      simp at ht

theorem nagLoop_mem_hour (s : Settings) (ivlMs endT : ℕ)
    (hse : s.startHour < s.endHour) (he : s.endHour ≤ 24) :
    ∀ fuel current, (∃ u, current = adjustForQuietHours s u) →
      ∀ t ∈ nagLoop s ivlMs endT fuel current,
        s.startHour ≤ getHours t ∧ getHours t < s.endHour := by
  intro fuel
  induction fuel with
  | zero => intro current _ t ht; simp [nagLoop] at ht
  | succ f ih =>
    intro current hcur t ht
    simp only [nagLoop] at ht
    by_cases hc : current < endT
    · rw [if_pos hc] at ht
      rcases List.mem_cons.mp ht with h | h
      · obtain ⟨u, hu⟩ := hcur
        subst h hu
        exact adjustForQuietHours_hour_mem s u hse he
      · exact ih _ ⟨current + ivlMs, rfl⟩ t h
    · rw [if_neg hc] at ht
      simp at ht

theorem nagLoop_head (s : Settings) (ivlMs endT : ℕ) (fuel current : ℕ) :
    (nagLoop s ivlMs endT fuel current).head? = none ∨
      (nagLoop s ivlMs endT fuel current).head? = some current := by
  match fuel with
  | 0 => left; rfl
  | f + 1 =>
    simp only [nagLoop]
    by_cases hc : current < endT
    · rw [if_pos hc]; right; rfl
    · rw [if_neg hc]; left; rfl

theorem nagLoop_chain (s : Settings) (ivlMs endT : ℕ) :
    ∀ fuel current, (nagLoop s ivlMs endT fuel current).Chain'
      (fun a b => b = adjustForQuietHours s (a + ivlMs)) := by
  intro fuel
  induction fuel with
  | zero => intro current; simp [nagLoop]
  | succ f ih =>
    intro current
    simp only [nagLoop]
    by_cases hc : current < endT
    · rw [if_pos hc]
      rw [List.chain'_cons']
      refine ⟨?_, ih _⟩
      intro y hy
      rcases nagLoop_head s ivlMs endT f (adjustForQuietHours s (current + ivlMs)) with h | h
      · rw [h] at hy; simp at hy
      · rw [h] at hy
        simp only [Option.mem_def, Option.some.injEq] at hy
        omega
    · rw [if_neg hc]
      simp

theorem nagLoop_len (s : Settings) (ivlMs endT : ℕ) :
    ∀ fuel current, current < endT →
      current + (nagLoop s ivlMs endT fuel current).length * ivlMs < endT + ivlMs := by
  intro fuel
  induction fuel with
  | zero => intro current hc; simp [nagLoop]; omega
  | succ f ih =>
    intro current hc
    simp only [nagLoop, if_pos hc, List.length_cons]
    set next := adjustForQuietHours s (current + ivlMs) with hnext
    have hadv : current + ivlMs ≤ next := le_adjustForQuietHours s (current + ivlMs)
    by_cases hn : next < endT
    · have := ih next hn
      have hlen : (nagLoop s ivlMs endT f next).length * ivlMs + next < endT + ivlMs := by
        omega
      calc current + ((nagLoop s ivlMs endT f next).length + 1) * ivlMs
          = current + ivlMs + (nagLoop s ivlMs endT f next).length * ivlMs := by ring
        _ ≤ next + (nagLoop s ivlMs endT f next).length * ivlMs := by omega
        _ < endT + ivlMs := by omega
    · have hempty : nagLoop s ivlMs endT f next = [] := by
        match f with
        | 0 => rfl
        | f + 1 => simp only [nagLoop]; rw [if_neg hn]
      rw [hempty]
      simp
      omega

/-- C3: The recurring nag planner only plans instants strictly inside the
24-hour horizon, every planned instant has hour-of-day inside active
hours `[startHour, endHour)`, the first planned instant is the quiet-hours
adjustment of `now + nagIntervalMinutes`, and each subsequent instant is
the quiet-hours adjustment of its predecessor plus the interval. -/
theorem nag_planner_plan_spec (m : Message) (s : Settings) (now : ℕ)
    (hivl : 1 ≤ m.nagIntervalMinutes)
    (hse : s.startHour < s.endHour) (he : s.endHour ≤ 24) :
    (∀ t ∈ scheduleRepeatingNagTimes m s now,
        t < now + dayMs ∧
        s.startHour ≤ getHours t ∧ getHours t < s.endHour) ∧
    (∀ t₀, (scheduleRepeatingNagTimes m s now).head? = some t₀ →
        t₀ = adjustForQuietHours s (now + m.nagIntervalMinutes * minuteMs)) ∧
    (scheduleRepeatingNagTimes m s now).Chain'
      (fun a b => b = adjustForQuietHours s (a + m.nagIntervalMinutes * minuteMs)) := by
  unfold scheduleRepeatingNagTimes
  refine ⟨?_, ?_, ?_⟩
  · intro t ht
    refine ⟨nagLoop_mem_lt s _ _ _ _ t ht, ?_⟩
    exact nagLoop_mem_hour s _ _ hse he _ _ ⟨_, rfl⟩ t ht
  · intro t₀ h₀
    rcases nagLoop_head s (m.nagIntervalMinutes * minuteMs) (now + dayMs) nagFuel
        (adjustForQuietHours s (now + m.nagIntervalMinutes * minuteMs)) with h | h
    · rw [h] at h₀; cases h₀
    · rw [h] at h₀
      cases h₀
      rfl
  · exact nagLoop_chain s _ _ _ _

/-- Witness for C3: interval 90 minutes, `now` = 09:00 of day zero,
active hours 8..22 — the spec's worked example. -/
theorem nag_planner_plan_spec_witness :
    ((1 : ℕ) ≤ 90 ∧ (8 : ℕ) < 22 ∧ (22 : ℕ) ≤ 24) ∧
      (∀ t ∈ scheduleRepeatingNagTimes ⟨"n1", "drink water", 3, true, 90, 0, none⟩
          ⟨true, 3, 8, 22, 2⟩ (9 * hourMs),
        t < 9 * hourMs + dayMs ∧ 8 ≤ getHours t ∧ getHours t < 22) := by
  refine ⟨⟨by decide, by decide, by decide⟩, ?_⟩
  exact (nag_planner_plan_spec ⟨"n1", "drink water", 3, true, 90, 0, none⟩
    ⟨true, 3, 8, 22, 2⟩ (9 * hourMs) (by decide) (by decide) (by decide)).1

/-- C7: For an interval of at least one minute the planning loop of
`scheduleRepeatingNag` terminates: adding any amount of fuel beyond
`nagFuel` changes nothing (the loop always exits through its guard), the
quiet-hours adjustment never moves an instant backward so each iteration
advances by at least the interval, and the number of planned instants is
bounded by the 24-hour horizon divided by the interval. -/
theorem nag_planner_terminates (m : Message) (s : Settings) (now : ℕ)
    (hivl : 1 ≤ m.nagIntervalMinutes) :
    (∀ extra, nagLoop s (m.nagIntervalMinutes * minuteMs) (now + dayMs)
        (nagFuel + extra)
        (adjustForQuietHours s (now + m.nagIntervalMinutes * minuteMs)) =
      scheduleRepeatingNagTimes m s now) ∧
    (∀ t, t ≤ adjustForQuietHours s t) ∧
    (scheduleRepeatingNagTimes m s now).Chain'
      (fun a b => a + m.nagIntervalMinutes * minuteMs ≤ b) ∧
    (scheduleRepeatingNagTimes m s now).length ≤ 1440 / m.nagIntervalMinutes := by
  have hge : now + m.nagIntervalMinutes * minuteMs ≤
      adjustForQuietHours s (now + m.nagIntervalMinutes * minuteMs) :=
    le_adjustForQuietHours s _
  refine ⟨?_, le_adjustForQuietHours s, ?_, ?_⟩
  · intro extra
    unfold scheduleRepeatingNagTimes
    have h1 : minuteMs ≤ m.nagIntervalMinutes * minuteMs := by
      calc minuteMs = 1 * minuteMs := (one_mul _).symm
        _ ≤ m.nagIntervalMinutes * minuteMs := Nat.mul_le_mul_right _ hivl
    have h2 : nagFuel * minuteMs ≤ nagFuel * (m.nagIntervalMinutes * minuteMs) :=
      Nat.mul_le_mul_left _ h1
    have h3 : dayMs ≤ nagFuel * minuteMs := by decide
    exact nagLoop_stable s _ _ nagFuel (nagFuel + extra) _ (Nat.le_add_right _ _)
      (by omega)
  · unfold scheduleRepeatingNagTimes
    exact (nagLoop_chain s _ _ nagFuel _).imp
      (fun a b hab => by
        rw [hab]
        exact le_adjustForQuietHours s _)
  · unfold scheduleRepeatingNagTimes
    by_cases hcm : adjustForQuietHours s (now + m.nagIntervalMinutes * minuteMs) <
        now + dayMs
    · have hl := nagLoop_len s (m.nagIntervalMinutes * minuteMs) (now + dayMs)
        nagFuel _ hcm
      set L := nagLoop s (m.nagIntervalMinutes * minuteMs) (now + dayMs) nagFuel
        (adjustForQuietHours s (now + m.nagIntervalMinutes * minuteMs)) with hL
      have hlt : L.length * (m.nagIntervalMinutes * minuteMs) < dayMs := by omega
      have hlt2 : L.length * m.nagIntervalMinutes < 1440 := by
      { have hmm : L.length * m.nagIntervalMinutes * minuteMs < 1440 * minuteMs := by
        { calc L.length * m.nagIntervalMinutes * minuteMs
              = L.length * (m.nagIntervalMinutes * minuteMs) := by ring
          _ < dayMs := hlt
          _ = 1440 * minuteMs := by decide }
        exact Nat.lt_of_mul_lt_mul_right hmm }
      exact (Nat.le_div_iff_mul_le (by omega)).mpr (le_of_lt hlt2)
    · have hempty : nagLoop s (m.nagIntervalMinutes * minuteMs) (now + dayMs)
          nagFuel (adjustForQuietHours s (now + m.nagIntervalMinutes * minuteMs)) = [] := by
        rw [show nagFuel = 1440 + 1 from rfl]
        show (if _ < _ then _ :: nagLoop _ _ _ 1440 _ else []) = []
        rw [if_neg hcm]
      rw [hempty]
      simp

/-- Witness for C7: interval 90 minutes, `now` = 09:00 of day zero,
active hours 8..22. -/
theorem nag_planner_terminates_witness :
    (1 : ℕ) ≤ 90 ∧
      (scheduleRepeatingNagTimes ⟨"n1", "drink water", 3, true, 90, 0, none⟩
          ⟨true, 3, 8, 22, 2⟩ (9 * hourMs)).length ≤ 1440 / 90 :=
  ⟨by decide,
    (nag_planner_terminates ⟨"n1", "drink water", 3, true, 90, 0, none⟩
      ⟨true, 3, 8, 22, 2⟩ (9 * hourMs) (by decide)).2.2.2⟩

/--
The inner rejection loop of `calculateNotificationTimes`:
`while (attempts < 50 && !validTime) { candidate = start + random()*windowMs;
 tooClose = times.some(|candidate - t| < minGapMs);
 if (!tooClose && candidate > now) validTime = candidate; attempts++ }`.
`k` is the cursor into the injected random stream (one draw per attempt);
the second `ℕ` argument is the remaining attempts (50 at the call site);
returns the accepted instant (if any) and the new cursor.
-/
def findValidTime (offsets : ℕ → ℕ) (startTime now minGapMs : ℕ)
    (times : List ℕ) : ℕ → ℕ → Option ℕ × ℕ
  | k, 0 => (none, k)
  | k, attempts + 1 =>
    let candidateTime := startTime + offsets k
    let tooClose := times.any (fun t => decide (Nat.dist candidateTime t < minGapMs))
    if tooClose = false ∧ now < candidateTime then (some candidateTime, k + 1)
    else findValidTime offsets startTime now minGapMs times (k + 1) attempts

/-- The outer slot loop of `calculateNotificationTimes`:
`for (i = 0; i < count; i++) { ... if (validTime) times.push(validTime) }`. -/
def slotLoop (offsets : ℕ → ℕ) (startTime now minGapMs : ℕ) :
    ℕ → List ℕ → ℕ → List ℕ
  | 0, times, _ => times
  | n + 1, times, k =>
    match findValidTime offsets startTime now minGapMs times k 50 with
    | (some validTime, k') =>
        slotLoop offsets startTime now minGapMs n (times ++ [validTime]) k'
    | (none, k') => slotLoop offsets startTime now minGapMs n times k'

/--
`calculateNotificationTimes(settings)` with the clock (`now`) and the
random draws (`offsets`, already scaled to `[0, windowMs)` and truncated
to whole milliseconds by the `Date` constructor) injected.  The final
JavaScript `times.sort((a, b) => a - b)` (ascending numeric sort) is
modelled by `insertionSort`.
-/
def calculateNotificationTimes (s : Settings) (now : ℕ) (offsets : ℕ → ℕ) :
    List ℕ :=
  let startTime₀ := atHour now s.startHour
  let endTime₀ := atHour now s.endHour
  let startTime := if endTime₀ < now then startTime₀ + dayMs else startTime₀
  let minGapMs := s.minGapHours * hourMs
  List.insertionSort (· ≤ ·)
    (slotLoop offsets startTime now minGapMs s.dailyFrequency [] 0)

theorem findValidTime_some (offsets : ℕ → ℕ) (startTime now minGapMs : ℕ)
    (times : List ℕ) :
    ∀ attempts k c k',
      findValidTime offsets startTime now minGapMs times k attempts = (some c, k') →
      (∃ j, c = startTime + offsets j) ∧ now < c ∧
        ∀ t ∈ times, minGapMs ≤ Nat.dist c t := by
  intro attempts
  induction attempts with
  | zero => intro k c k' h; cases h
  | succ a ih =>
    intro k c k' h
    simp only [findValidTime] at h
    by_cases hacc :
        times.any (fun t => decide (Nat.dist (startTime + offsets k) t < minGapMs)) = false ∧
          now < startTime + offsets k
    · rw [if_pos hacc] at h
      obtain ⟨hc, _⟩ := Prod.mk.injEq .. ▸ h
      cases h
      refine ⟨⟨k, rfl⟩, hacc.2, ?_⟩
      intro t ht
      have := List.any_eq_false.mp hacc.1 t ht
      simp only [decide_eq_true_eq, not_lt] at this
      exact this
    · rw [if_neg hacc] at h
      exact ih _ _ _ h

theorem slotLoop_mem (offsets : ℕ → ℕ) (startTime now minGapMs W : ℕ)
    (hoff : ∀ k, offsets k < W) :
    ∀ n times k,
      (∀ u ∈ times, startTime ≤ u ∧ u < startTime + W ∧ now < u) →
      ∀ t ∈ slotLoop offsets startTime now minGapMs n times k,
        startTime ≤ t ∧ t < startTime + W ∧ now < t := by
  intro n
  induction n with
  | zero => intro times k hinv t ht; exact hinv t ht
  | succ n ih =>
    intro times k hinv t ht
    simp only [slotLoop] at ht
    rcases hfv : findValidTime offsets startTime now minGapMs times k 50 with ⟨o, k'⟩
    rcases o with _ | c
    · rw [hfv] at ht
      exact ih times k' hinv t ht
    · rw [hfv] at ht
      obtain ⟨⟨j, hj⟩, hnow, _⟩ :=
        findValidTime_some offsets startTime now minGapMs times 50 k c k' hfv
      refine ih (times ++ [c]) k' ?_ t ht
      intro u hu
      rcases List.mem_append.mp hu with hu | hu
      · exact hinv u hu
      · rcases List.mem_singleton.mp hu with rfl
        subst hj
        exact ⟨Nat.le_add_right _ _, by have := hoff j; omega, hnow⟩

theorem slotLoop_pairwise (offsets : ℕ → ℕ) (startTime now minGapMs : ℕ) :
    ∀ n times k, times.Pairwise (fun a b => minGapMs ≤ Nat.dist a b) →
      (slotLoop offsets startTime now minGapMs n times k).Pairwise
        (fun a b => minGapMs ≤ Nat.dist a b) := by
  intro n
  induction n with
  | zero => intro times k h; exact h
  | succ n ih =>
    intro times k h
    simp only [slotLoop]
    rcases hfv : findValidTime offsets startTime now minGapMs times k 50 with ⟨o, k'⟩
    rcases o with _ | c
    · exact ih times k' h
    · obtain ⟨_, _, hgap⟩ :=
        findValidTime_some offsets startTime now minGapMs times 50 k c k' hfv
      refine ih (times ++ [c]) k' ?_
      rw [List.pairwise_append]
      refine ⟨h, List.pairwise_singleton _ _, ?_⟩
      intro a ha b hb
      rcases List.mem_singleton.mp hb with rfl
      rw [Nat.dist_comm]
      exact hgap a ha

theorem slotLoop_length (offsets : ℕ → ℕ) (startTime now minGapMs : ℕ) :
    ∀ n times k,
      (slotLoop offsets startTime now minGapMs n times k).length ≤
        times.length + n := by
  intro n
  induction n with
  | zero => intro times k; simp [slotLoop]
  | succ n ih =>
    intro times k
    simp only [slotLoop]
    rcases hfv : findValidTime offsets startTime now minGapMs times k 50 with ⟨o, k'⟩
    rcases o with _ | c
    · show (slotLoop offsets startTime now minGapMs n times k').length ≤
        times.length + (n + 1)
      have := ih times k'
      omega
    · show (slotLoop offsets startTime now minGapMs n (times ++ [c]) k').length ≤
        times.length + (n + 1)
      have := ih (times ++ [c]) k'
      simp only [List.length_append, List.length_singleton] at this
      omega

/-- C1: With `startHour < endHour` and draws inside the window, every
instant the window sampler returns lies in today's window
`[startHour:00, endHour:00]` and is strictly after `now` whenever `now`
is strictly before today's `endHour:00`; and when `now` is past the
window's end, every returned instant lies in the same window shifted
forward by exactly one calendar day. -/
theorem window_sampler_in_window (s : Settings) (now : ℕ) (offsets : ℕ → ℕ)
    (hse : s.startHour < s.endHour)
    (hoff : ∀ k, offsets k < (s.endHour - s.startHour) * hourMs) :
    (now < atHour now s.endHour →
      ∀ t ∈ calculateNotificationTimes s now offsets,
        (atHour now s.startHour ≤ t ∧ t ≤ atHour now s.endHour) ∧ now < t) ∧
    (atHour now s.endHour < now →
      ∀ t ∈ calculateNotificationTimes s now offsets,
        atHour now s.startHour + dayMs ≤ t ∧ t ≤ atHour now s.endHour + dayMs) := by
  constructor
  · intro hlt t ht
    simp only [calculateNotificationTimes] at ht
    rw [if_neg (by omega)] at ht
    have hmem : t ∈ slotLoop offsets (atHour now s.startHour) now
        (s.minGapHours * hourMs) s.dailyFrequency [] 0 :=
      (List.perm_insertionSort _ _).mem_iff.mp ht
    have hinv := slotLoop_mem offsets (atHour now s.startHour) now
      (s.minGapHours * hourMs) ((s.endHour - s.startHour) * hourMs) hoff
      s.dailyFrequency [] 0 (by simp) t hmem
    have harith : atHour now s.startHour + (s.endHour - s.startHour) * hourMs =
        atHour now s.endHour := by
      simp only [atHour, todayStart, dayMs, hourMs]
      omega
    exact ⟨⟨hinv.1, by omega⟩, hinv.2.2⟩
  · intro hlt t ht
    simp only [calculateNotificationTimes] at ht
    rw [if_pos hlt] at ht
    have hmem : t ∈ slotLoop offsets (atHour now s.startHour + dayMs) now
        (s.minGapHours * hourMs) s.dailyFrequency [] 0 :=
      (List.perm_insertionSort _ _).mem_iff.mp ht
    have hinv := slotLoop_mem offsets (atHour now s.startHour + dayMs) now
      (s.minGapHours * hourMs) ((s.endHour - s.startHour) * hourMs) hoff
      s.dailyFrequency [] 0 (by simp) t hmem
    have harith : atHour now s.startHour + (s.endHour - s.startHour) * hourMs =
        atHour now s.endHour := by
      simp only [atHour, todayStart, dayMs, hourMs]
      omega
    exact ⟨hinv.1, by omega⟩

/-- Witness for C1: settings `{dailyFrequency 2, startHour 8, endHour 22,
minGapHours 2}`, `now` = 09:00 of day zero, every draw = 2 hours. -/
theorem window_sampler_in_window_witness :
    ((8 : ℕ) < 22 ∧ 9 * hourMs < atHour (9 * hourMs) 22) ∧
      ∀ t ∈ calculateNotificationTimes ⟨true, 2, 8, 22, 2⟩ (9 * hourMs)
          (fun _ => 2 * hourMs),
        (atHour (9 * hourMs) 8 ≤ t ∧ t ≤ atHour (9 * hourMs) 22) ∧
          9 * hourMs < t :=
  ⟨⟨by decide, by decide⟩,
    (window_sampler_in_window ⟨true, 2, 8, 22, 2⟩ (9 * hourMs)
      (fun _ => 2 * hourMs) (by decide)
      (by intro k; show 2 * hourMs < (22 - 8) * hourMs; decide)).1 (by decide)⟩

/-- C2: For every settings, clock and random stream, the window sampler
returns at most `dailyFrequency` instants, sorted ascending, and any two
of them (counted at distinct positions) are at least `minGapHours` hours
apart — a slot whose 50 attempts all fail is skipped, so saturation
shortens the output instead of violating the gap. -/
theorem window_sampler_gap_sorted_bounded (s : Settings) (now : ℕ)
    (offsets : ℕ → ℕ) :
    (calculateNotificationTimes s now offsets).length ≤ s.dailyFrequency ∧
    List.Sorted (· ≤ ·) (calculateNotificationTimes s now offsets) ∧
    (calculateNotificationTimes s now offsets).Pairwise
      (fun a b => s.minGapHours * hourMs ≤ Nat.dist a b) := by
  simp only [calculateNotificationTimes]
  refine ⟨?_, ?_, ?_⟩
  · rw [(List.perm_insertionSort _ _).length_eq]
    have := slotLoop_length offsets
      (if atHour now s.endHour < now then atHour now s.startHour + dayMs
        else atHour now s.startHour) now (s.minGapHours * hourMs)
      s.dailyFrequency [] 0
    simpa using this
  · exact List.sorted_insertionSort _ _
  · have hp := slotLoop_pairwise offsets
      (if atHour now s.endHour < now then atHour now s.startHour + dayMs
        else atHour now s.startHour) now (s.minGapHours * hourMs)
      s.dailyFrequency [] 0 List.Pairwise.nil
    exact hp.perm (List.perm_insertionSort _ _).symm
      (fun hxy => by rw [Nat.dist_comm]; exact hxy)

/--
`isMessageNew(message)` from StorageService:
`Date.now() - message.createdAt < 14 days`.  In JavaScript a `createdAt`
in the future gives a negative difference, which is also below the
threshold; the truncated `ℕ` subtraction gives `0 < twoWeeksMs`, so the
model agrees on every input.
-/
def isMessageNew (nowMs : ℕ) (m : Message) : Bool :=
  decide (nowMs - m.createdAt < twoWeeksMs)

/--
The effective weight assigned inside `selectNextMessage`:
`let weight = msg.weight || 3` (`0` is falsy) and then
`if (weight === 3 && isMessageNew(msg)) weight = weight * 1.5`.
-/
def effectiveWeight (nowMs : ℕ) (m : Message) : ℚ :=
  let weight : ℚ := if m.weight = 0 then 3 else (m.weight : ℚ)
  if weight = 3 ∧ isMessageNew nowMs m = true then weight * (3 / 2) else weight

/-- `totalWeight = weightedMessages.reduce((sum, msg) => sum + msg.effectiveWeight, 0)`. -/
def totalWeight (messages : List Message) (nowMs : ℕ) : ℚ :=
  ((messages.filter (fun m => !m.isNagMe)).map
    (fun m => (m, effectiveWeight nowMs m))).foldl (fun sum p => sum + p.2) 0

/-- The selection walk of `selectNextMessage`:
`for (msg of weighted) { random -= msg.effectiveWeight;
 if (random <= 0) return msg }`. -/
def selectLoop : ℚ → List (Message × ℚ) → Option Message
  | _, [] => none
  | r, (m, w) :: rest =>
    if r - w ≤ 0 then some m else selectLoop (r - w) rest

/-- `selectNextMessage()` with the stored messages, the clock and the
scaled random draw (`Math.random() * totalWeight`) injected.  The final
`return weightedMessages[0]` fallback is the `none` branch. -/
def selectNextMessage (messages : List Message) (nowMs : ℕ) (r : ℚ) :
    Option Message :=
  let regularMessages := messages.filter (fun m => !m.isNagMe)
  if regularMessages.length = 0 then none
  else
    let weightedMessages :=
      regularMessages.map (fun m => (m, effectiveWeight nowMs m))
    match selectLoop r weightedMessages with
    | some m => some m
    | none => weightedMessages.head?.map Prod.fst

/-- The running sum of effective weights over the first `n` candidates. -/
def runningTotal (cands : List Message) (nowMs : ℕ) (n : ℕ) : ℚ :=
  ((cands.take n).map (effectiveWeight nowMs)).sum

theorem selectLoop_none :
    ∀ (L : List (Message × ℚ)) (r : ℚ),
      (∀ i, i < L.length → ¬ r ≤ ((L.take (i + 1)).map Prod.snd).sum) →
      selectLoop r L = none := by
  intro L
  induction L with
  | nil => intro r _; rfl
  | cons p tl ih =>
    rcases p with ⟨m, w⟩
    intro r h
    have h0 : ¬ r ≤ w := by
      have := h 0 (by simp)
      simpa using this
    simp only [selectLoop]
    rw [if_neg (by rw [sub_nonpos]; exact h0)]
    refine ih (r - w) ?_
    intro i hi
    have := h (i + 1) (by simpa using Nat.succ_lt_succ hi)
    simp only [List.take_succ_cons, List.map_cons, List.sum_cons] at this
    intro hc
    exact this (by linarith)

theorem selectLoop_hit :
    ∀ (L : List (Message × ℚ)) (r : ℚ) (i : ℕ) (hi : i < L.length),
      r ≤ ((L.take (i + 1)).map Prod.snd).sum →
      (∀ j, j < i → ¬ r ≤ ((L.take (j + 1)).map Prod.snd).sum) →
      selectLoop r L = some (L.get ⟨i, hi⟩).1 := by
  intro L
  induction L with
  | nil => intro r i hi; simp at hi
  | cons p tl ih =>
    rcases p with ⟨m, w⟩
    intro r i hi hhit hmin
    match i with
    | 0 =>
      simp only [List.take_succ_cons, List.take_zero, List.map_cons,
        List.map_nil, List.sum_cons, List.sum_nil, add_zero] at hhit
      simp only [selectLoop]
      rw [if_pos (by rw [sub_nonpos]; exact hhit)]
      rfl
    | i + 1 =>
      have h0 : ¬ r ≤ w := by
        have := hmin 0 (Nat.succ_pos _)
        simpa using this
      simp only [selectLoop]
      rw [if_neg (by rw [sub_nonpos]; exact h0)]
      have hi' : i < tl.length := by simpa using Nat.lt_of_succ_lt_succ hi
      have hhit' : r - w ≤ ((tl.take (i + 1)).map Prod.snd).sum := by
        simp only [List.take_succ_cons, List.map_cons, List.sum_cons] at hhit
        linarith
      have hmin' : ∀ j, j < i → ¬ r - w ≤ ((tl.take (j + 1)).map Prod.snd).sum := by
        intro j hj
        have := hmin (j + 1) (Nat.succ_lt_succ hj)
        simp only [List.take_succ_cons, List.map_cons, List.sum_cons] at this
        intro hc
        exact this (by linarith)
      exact ih (r - w) i hi' hhit' hmin'

theorem weighted_take_sum (cands : List Message) (nowMs : ℕ) (n : ℕ) :
    (((cands.map (fun m => (m, effectiveWeight nowMs m))).take n).map
      Prod.snd).sum = runningTotal cands nowMs n := by
  rw [← List.map_take, List.map_map, runningTotal]
  rfl

/-- C5: The weighted selector works on exactly the non-nag messages:
on an empty candidate set it returns `none`; otherwise it returns the
first candidate (in list order) at which the draw minus the running sum
of effective weights becomes `≤ 0` (equivalently, the first index whose
running total reaches `r`), and if the walk exhausts every candidate
without a hit it falls back to the first candidate. -/
theorem weighted_selector_walk (messages : List Message) (nowMs : ℕ) (r : ℚ) :
    (messages.filter (fun m => !m.isNagMe) = [] →
      selectNextMessage messages nowMs r = none) ∧
    (∀ i (hi : i < (messages.filter (fun m => !m.isNagMe)).length),
      r ≤ runningTotal (messages.filter (fun m => !m.isNagMe)) nowMs (i + 1) →
      (∀ j, j < i →
        ¬ r ≤ runningTotal (messages.filter (fun m => !m.isNagMe)) nowMs (j + 1)) →
      selectNextMessage messages nowMs r =
        some ((messages.filter (fun m => !m.isNagMe)).get ⟨i, hi⟩)) ∧
    ((∀ i, i < (messages.filter (fun m => !m.isNagMe)).length →
        ¬ r ≤ runningTotal (messages.filter (fun m => !m.isNagMe)) nowMs (i + 1)) →
      selectNextMessage messages nowMs r =
        (messages.filter (fun m => !m.isNagMe)).head?) := by
  set regular := messages.filter (fun m => !m.isNagMe) with hreg
  refine ⟨?_, ?_, ?_⟩
  · intro h
    simp only [selectNextMessage, ← hreg, h]
    simp
  · intro i hi hhit hmin
    simp only [selectNextMessage, ← hreg]
    rw [if_neg (by omega)]
    have hi' : i < (regular.map (fun m => (m, effectiveWeight nowMs m))).length := by
      simpa using hi
    have hhit' : r ≤ (((regular.map (fun m => (m, effectiveWeight nowMs m))).take
        (i + 1)).map Prod.snd).sum := by
      rw [weighted_take_sum]
      exact hhit
    have hmin' : ∀ j, j < i →
        ¬ r ≤ (((regular.map (fun m => (m, effectiveWeight nowMs m))).take
          (j + 1)).map Prod.snd).sum := by
      intro j hj
      rw [weighted_take_sum]
      exact hmin j hj
    rw [selectLoop_hit (regular.map (fun m => (m, effectiveWeight nowMs m)))
      r i hi' hhit' hmin']
    rw [List.get_map]
  · intro hmiss
    by_cases hlen : regular.length = 0
    · have hnil : regular = [] := List.length_eq_zero.mp hlen
      simp only [selectNextMessage, ← hreg, hnil]
      simp
    · simp only [selectNextMessage, ← hreg]
      rw [if_neg hlen]
      have hmiss' : ∀ i, i < (regular.map (fun m => (m, effectiveWeight nowMs m))).length →
          ¬ r ≤ (((regular.map (fun m => (m, effectiveWeight nowMs m))).take
            (i + 1)).map Prod.snd).sum := by
        intro i hilen
        rw [weighted_take_sum]
        exact hmiss i (by simpa using hilen)
      rw [selectLoop_none (regular.map (fun m => (m, effectiveWeight nowMs m)))
        r hmiss']
      simp only [List.head?_map]
      rcases hh : regular.head? with _ | m
      · rfl
      · rfl

/-- Witness for C5: a single non-nag message and the draw `r = 1` selects
that message at index 0. -/
theorem weighted_selector_walk_witness :
    (0 < ([(⟨"a", "hello", 3, false, 0, 0, none⟩ : Message)].filter
        (fun m => !m.isNagMe)).length) ∧
      selectNextMessage [(⟨"a", "hello", 3, false, 0, 0, none⟩ : Message)] 0 1 =
        some (([(⟨"a", "hello", 3, false, 0, 0, none⟩ : Message)].filter
          (fun m => !m.isNagMe)).get ⟨0, by decide⟩) :=
  ⟨by decide,
    (weighted_selector_walk [(⟨"a", "hello", 3, false, 0, 0, none⟩ : Message)] 0 1).2.1 0
      (by decide)
      (by norm_num [runningTotal, effectiveWeight, isMessageNew, twoWeeksMs,
        dayMs, hourMs])
      (fun j hj => absurd hj (Nat.not_lt_zero j))⟩

/-- C6: For weights in `1..5` the effective weight equals
`weight * 1.5` exactly when the weight is 3 and the message is younger
than the 14-day novelty window, and equals the raw weight otherwise;
in particular a weight-3 message created one day ago has effective
weight `4.5` and one created 20 days ago has effective weight `3`. -/
theorem effective_weight_novelty_boost :
    (∀ (m : Message) (nowMs : ℕ), 1 ≤ m.weight → m.weight ≤ 5 →
      effectiveWeight nowMs m =
        if m.weight = 3 ∧ isMessageNew nowMs m = true
        then (m.weight : ℚ) * (3 / 2) else (m.weight : ℚ)) ∧
    effectiveWeight dayMs ⟨"w3", "x", 3, false, 0, 0, none⟩ = 9 / 2 ∧
    effectiveWeight (20 * dayMs) ⟨"w3", "x", 3, false, 0, 0, none⟩ = 3 := by
  refine ⟨?_, ?_, ?_⟩
  · intro m nowMs h1 h5
    have hw : ¬ m.weight = 0 := by omega
    by_cases h3 : m.weight = 3
    · by_cases hnew : isMessageNew nowMs m = true
      · simp [effectiveWeight, hw, h3, hnew]
      · simp [effectiveWeight, hw, h3, hnew]
    · have hc : ¬ ((m.weight : ℚ) = 3) := by
        intro hq
        exact h3 (by exact_mod_cast hq)
      simp [effectiveWeight, hw, h3, hc]
  · norm_num [effectiveWeight, isMessageNew, twoWeeksMs, dayMs, hourMs]
  · norm_num [effectiveWeight, isMessageNew, twoWeeksMs, dayMs, hourMs]

/-- Witness for C6: the general clause applied to the weight-3 message
created at epoch 0 evaluated one day later. -/
theorem effective_weight_novelty_boost_witness :
    ((1 : ℕ) ≤ 3 ∧ (3 : ℕ) ≤ 5) ∧
      effectiveWeight dayMs ⟨"w3", "x", 3, false, 0, 0, none⟩ =
        if (3 : ℕ) = 3 ∧ isMessageNew dayMs ⟨"w3", "x", 3, false, 0, 0, none⟩ = true
        then ((3 : ℕ) : ℚ) * (3 / 2) else ((3 : ℕ) : ℚ) :=
  ⟨⟨by decide, by decide⟩,
    effective_weight_novelty_boost.1 ⟨"w3", "x", 3, false, 0, 0, none⟩ dayMs
      (by decide) (by decide)⟩

/-- JavaScript `id.startsWith(prefixString)`. -/
def jsStartsWith (str pre : String) : Bool := pre.data.isPrefixOf str.data

/-- One pending trigger notification inside the notifee sink. -/
structure PendingNotif where
  id : String
  timestamp : ℕ
  title : String
  body : String
deriving DecidableEq, Repr

/-- The state the orchestrator touches: the message store, the sink's
pending trigger notifications, and the saved app state
(`lastNotificationTime`). -/
structure World where
  messages : List Message
  pending : List PendingNotif
  lastNotificationTime : Option ℕ
deriving DecidableEq, Repr

/-- The id `wisdom-${time.getTime()}`. -/
def wisdomId (t : ℕ) : String := "wisdom-" ++ toString t

/-- The id `nag-${message.id}-${time.getTime()}`. -/
def nagId (m : Message) (t : ℕ) : String :=
  "nag-" ++ (m.id ++ ("-" ++ toString t))

/-- `notifee.cancelTriggerNotifications(ids)`. -/
def cancelTriggerNotifications (ids : List String)
    (pending : List PendingNotif) : List PendingNotif :=
  pending.filter (fun n => !(ids.contains n.id))

/-- `cancelAllWisdomNotifications()`: enumerate the pending trigger
notifications, keep the ids starting with `wisdom-`, cancel those. -/
def cancelAllWisdomNotifications (pending : List PendingNotif) :
    List PendingNotif :=
  cancelTriggerNotifications
    ((pending.filter (fun n => jsStartsWith n.id "wisdom-")).map
      (fun n => n.id)) pending

/-- `cancelAllNagNotifications()`: same with the `nag-` id prefix. -/
def cancelAllNagNotifications (pending : List PendingNotif) :
    List PendingNotif :=
  cancelTriggerNotifications
    ((pending.filter (fun n => jsStartsWith n.id "nag-")).map
      (fun n => n.id)) pending

/-- `StorageService.updateMessage(id, {lastShown: t})`: overwrite the
fields of the first message whose id matches (`findIndex`). -/
def updateMessage (id : String) (t : ℕ) : List Message → List Message
  | [] => []
  | m :: rest =>
    if m.id = id then { m with lastShown := some t } :: rest
    else m :: updateMessage id t rest

/-- `notifee.createTriggerNotification`: the injected oracle `fails`
says which ids the sink rejects; a rejected call throws, leaving the
sink unchanged; an accepted call appends the notification. -/
def createTriggerNotification (fails : String → Bool) (n : PendingNotif)
    (pending : List PendingNotif) :
    Except (List PendingNotif) (List PendingNotif) :=
  if fails n.id then .error pending else .ok (pending ++ [n])

/--
The scheduling loop of `scheduleWisdomNotifications`:
`for (time of times) { message = selectNextMessage(); if (!message) continue;
 createTriggerNotification(...); updateMessage(message.id, {lastShown}) }`.
`k` cursors the injected selector draws (one per iteration).  A throwing
`createTriggerNotification` aborts the whole pass (the source has no
`try`/`catch`), carrying the state reached so far.
-/
def wisdomLoop (fails : String → Bool) (nowMs : ℕ) (draws : ℕ → ℚ) :
    List ℕ → ℕ → World → Except World World
  | [], _, w => .ok w
  | t :: rest, k, w =>
    match selectNextMessage w.messages nowMs (draws k) with
    | none => wisdomLoop fails nowMs draws rest (k + 1) w
    | some msg =>
      match createTriggerNotification fails
          ⟨wisdomId t, t, "💡 Note to Self", msg.text⟩ w.pending with
      | .error p => .error { w with pending := p }
      | .ok p =>
        wisdomLoop fails nowMs draws rest (k + 1)
          { w with messages := updateMessage msg.id t w.messages, pending := p }

/-- `scheduleWisdomNotifications()` with settings, clock, random streams
and the sink-failure oracle injected. -/
def scheduleWisdomNotifications (fails : String → Bool) (offsets : ℕ → ℕ)
    (draws : ℕ → ℚ) (s : Settings) (nowMs : ℕ) (w : World) :
    Except World World :=
  if s.notificationsEnabled = false then
    .ok { w with pending := cancelAllWisdomNotifications w.pending }
  else
    let w₁ : World := { w with pending := cancelAllWisdomNotifications w.pending }
    let times := calculateNotificationTimes s nowMs offsets
    match wisdomLoop fails nowMs draws times 0 w₁ with
    | .error w' => .error w'
    | .ok w' => .ok { w' with lastNotificationTime := some nowMs }

/-- The registration loop of `scheduleRepeatingNag`: one
`createTriggerNotification` per planned instant, no `try`/`catch`. -/
def nagRegLoop (fails : String → Bool) (m : Message) :
    List ℕ → List PendingNotif →
      Except (List PendingNotif) (List PendingNotif)
  | [], pending => .ok pending
  | t :: rest, pending =>
    match createTriggerNotification fails
        ⟨nagId m t, t, "⏰ Reminder", m.text⟩ pending with
    | .error p => .error p
    | .ok p => nagRegLoop fails m rest p

/-- `scheduleRepeatingNag(message, settings)`: plan the 24-hour sequence,
then register every planned instant. -/
def scheduleRepeatingNag (fails : String → Bool) (m : Message)
    (s : Settings) (nowMs : ℕ) (pending : List PendingNotif) :
    Except (List PendingNotif) (List PendingNotif) :=
  nagRegLoop fails m (scheduleRepeatingNagTimes m s nowMs) pending

/-- The per-message loop of `scheduleNagNotifications`. -/
def nagMsgsLoop (fails : String → Bool) (s : Settings) (nowMs : ℕ) :
    List Message → List PendingNotif →
      Except (List PendingNotif) (List PendingNotif)
  | [], pending => .ok pending
  | m :: rest, pending =>
    match scheduleRepeatingNag fails m s nowMs pending with
    | .error p => .error p
    | .ok p => nagMsgsLoop fails s nowMs rest p

/-- `scheduleNagNotifications()`: cancel all nag-kind notifications, then
run `scheduleRepeatingNag` for every message with `isNagMe`. -/
def scheduleNagNotifications (fails : String → Bool) (s : Settings)
    (nowMs : ℕ) (w : World) : Except World World :=
  let pending₁ := cancelAllNagNotifications w.pending
  match nagMsgsLoop fails s nowMs (w.messages.filter (fun m => m.isNagMe))
      pending₁ with
  | .error p => .error { w with pending := p }
  | .ok p => .ok { w with pending := p }

/-- The external state as left behind by a pass, whether it completed or
threw. -/
def resultWorld : Except World World → World
  | .ok w => w
  | .error w => w

/-- Same for the sink-only loops. -/
def resultPending :
    Except (List PendingNotif) (List PendingNotif) → List PendingNotif
  | .ok p => p
  | .error p => p

theorem jsStartsWith_append (pre rest : String) :
    jsStartsWith (pre ++ rest) pre = true := by
  simp [jsStartsWith, String.data_append]

theorem wisdomId_startsWith (t : ℕ) :
    jsStartsWith (wisdomId t) "wisdom-" = true :=
  jsStartsWith_append "wisdom-" (toString t)

theorem nagId_startsWith (m : Message) (t : ℕ) :
    jsStartsWith (nagId m t) "nag-" = true :=
  jsStartsWith_append "nag-" (m.id ++ ("-" ++ toString t))

/-- A string starting with `nag-` cannot also start with `wisdom-`. -/
theorem not_wisdom_of_nag (str : String)
    (h : jsStartsWith str "nag-" = true) :
    jsStartsWith str "wisdom-" = false := by
  simp only [jsStartsWith, List.isPrefixOf_iff_prefix] at h
  obtain ⟨t, ht⟩ := h
  simp only [jsStartsWith]
  rw [← ht]
  simp [List.isPrefixOf]

/-- A string starting with `wisdom-` cannot also start with `nag-`. -/
theorem not_nag_of_wisdom (str : String)
    (h : jsStartsWith str "wisdom-" = true) :
    jsStartsWith str "nag-" = false := by
  simp only [jsStartsWith, List.isPrefixOf_iff_prefix] at h
  obtain ⟨t, ht⟩ := h
  simp only [jsStartsWith]
  rw [← ht]
  simp [List.isPrefixOf]

/-- Cancelling by the enumerated `wisdom-` ids removes exactly the
entries whose id starts with `wisdom-`. -/
theorem cancelAllWisdom_eq (pending : List PendingNotif) :
    cancelAllWisdomNotifications pending =
      pending.filter (fun n => !(jsStartsWith n.id "wisdom-")) := by
  unfold cancelAllWisdomNotifications cancelTriggerNotifications
  apply List.filter_congr
  intro n hn
  by_cases h : jsStartsWith n.id "wisdom-" = true
  · have hmem : n.id ∈ (pending.filter
        (fun n => jsStartsWith n.id "wisdom-")).map (fun n => n.id) :=
      List.mem_map.mpr ⟨n, List.mem_filter.mpr ⟨hn, h⟩, rfl⟩
    rw [h]
    rw [List.contains_iff_exists_mem_beq.mpr ⟨n.id, hmem, by simp⟩]
  · rw [eq_false_of_ne_true h]
    have hnc : ¬ n.id ∈ (pending.filter
        (fun n => jsStartsWith n.id "wisdom-")).map (fun n => n.id) := by
      intro hc
      obtain ⟨n', hn', hid⟩ := List.mem_map.mp hc
      have := (List.mem_filter.mp hn').2
      rw [hid] at this
      exact h this
    have : ((pending.filter (fun n => jsStartsWith n.id "wisdom-")).map
        (fun n => n.id)).contains n.id = false := by
      rw [← Bool.not_eq_true]
      intro hc
      exact hnc (List.elem_iff.mp hc)
    rw [this]

/-- Cancelling by the enumerated `nag-` ids removes exactly the entries
whose id starts with `nag-`. -/
theorem cancelAllNag_eq (pending : List PendingNotif) :
    cancelAllNagNotifications pending =
      pending.filter (fun n => !(jsStartsWith n.id "nag-")) := by
  unfold cancelAllNagNotifications cancelTriggerNotifications
  apply List.filter_congr
  intro n hn
  by_cases h : jsStartsWith n.id "nag-" = true
  · have hmem : n.id ∈ (pending.filter
        (fun n => jsStartsWith n.id "nag-")).map (fun n => n.id) :=
      List.mem_map.mpr ⟨n, List.mem_filter.mpr ⟨hn, h⟩, rfl⟩
    rw [h]
    rw [List.contains_iff_exists_mem_beq.mpr ⟨n.id, hmem, by simp⟩]
  · rw [eq_false_of_ne_true h]
    have hnc : ¬ n.id ∈ (pending.filter
        (fun n => jsStartsWith n.id "nag-")).map (fun n => n.id) := by
      intro hc
      obtain ⟨n', hn', hid⟩ := List.mem_map.mp hc
      have := (List.mem_filter.mp hn').2
      rw [hid] at this
      exact h this
    have : ((pending.filter (fun n => jsStartsWith n.id "nag-")).map
        (fun n => n.id)).contains n.id = false := by
      rw [← Bool.not_eq_true]
      intro hc
      exact hnc (List.elem_iff.mp hc)
    rw [this]

/-- C8: With notifications disabled, the wisdom pass cancels exactly the
pending notifications whose id starts with `wisdom-` and stops: it
registers nothing, reads no messages, samples no times (the outcome is
the same for every failure oracle, random stream and message store), and
leaves the rest of the state untouched. -/
theorem wisdom_pass_disabled_cancels (fails : String → Bool)
    (offsets : ℕ → ℕ) (draws : ℕ → ℚ) (s : Settings) (nowMs : ℕ) (w : World)
    (hdis : s.notificationsEnabled = false) :
    scheduleWisdomNotifications fails offsets draws s nowMs w =
      .ok { w with pending :=
        w.pending.filter (fun n => !(jsStartsWith n.id "wisdom-")) } := by
  unfold scheduleWisdomNotifications
  rw [hdis, if_pos rfl, cancelAllWisdom_eq]

/-- Witness for C8: disabled settings, one wisdom and one nag entry
pending; the wisdom entry is cancelled, the nag entry kept. -/
theorem wisdom_pass_disabled_cancels_witness :
    ((⟨false, 3, 8, 22, 2⟩ : Settings).notificationsEnabled = false) ∧
      scheduleWisdomNotifications (fun _ => false) (fun _ => 0) (fun _ => 0)
          ⟨false, 3, 8, 22, 2⟩ 0
          ⟨[], [⟨"wisdom-77", 77, "a", "b"⟩, ⟨"nag-m1-5", 5, "c", "d"⟩], none⟩ =
        .ok ⟨[],
          [⟨"wisdom-77", 77, "a", "b"⟩, ⟨"nag-m1-5", 5, "c", "d"⟩].filter
            (fun n => !(jsStartsWith n.id "wisdom-")), none⟩ :=
  ⟨rfl,
    wisdom_pass_disabled_cancels (fun _ => false) (fun _ => 0) (fun _ => 0)
      ⟨false, 3, 8, 22, 2⟩ 0
      ⟨[], [⟨"wisdom-77", 77, "a", "b"⟩, ⟨"nag-m1-5", 5, "c", "d"⟩], none⟩ rfl⟩

/-- C9 (amended): a failing `createTriggerNotification` aborts the pass
at that point — the loop returns immediately with the registrations made
so far, attempting none of the remaining ones, and the wisdom pass
propagates the error to its caller (there is no aggregation and no
continuation). -/
theorem register_failure_aborts (fails : String → Bool) :
    (∀ (m : Message) (t : ℕ) (rest : List ℕ) (pending : List PendingNotif),
      fails (nagId m t) = true →
      nagRegLoop fails m (t :: rest) pending = .error pending) ∧
    (∀ (nowMs : ℕ) (draws : ℕ → ℚ) (t : ℕ) (rest : List ℕ) (k : ℕ)
        (w : World) (msg : Message),
      selectNextMessage w.messages nowMs (draws k) = some msg →
      fails (wisdomId t) = true →
      wisdomLoop fails nowMs draws (t :: rest) k w = .error w) ∧
    (∀ (offsets : ℕ → ℕ) (draws : ℕ → ℚ) (s : Settings) (nowMs : ℕ)
        (w w' : World),
      s.notificationsEnabled = true →
      wisdomLoop fails nowMs draws (calculateNotificationTimes s nowMs offsets)
          0 { w with pending := cancelAllWisdomNotifications w.pending } =
        .error w' →
      scheduleWisdomNotifications fails offsets draws s nowMs w = .error w') := by
  refine ⟨?_, ?_, ?_⟩
  · intro m t rest pending h
    simp [nagRegLoop, createTriggerNotification, h]
  · intro nowMs draws t rest k w msg hsel hf
    simp only [wisdomLoop]
    rw [hsel]
    simp [createTriggerNotification, hf]
  · intro offsets draws s nowMs w w' henb hloop
    simp only [scheduleWisdomNotifications]
    rw [if_neg (by rw [henb]; exact fun hc => Bool.noConfusion hc)]
    rw [hloop]

/-- Counterexample to C9 as stated: nag message `m1` (interval 300 min,
active hours 8..22, `now` = 08:00) plans exactly the two instants 13:00
and 18:00; the sink rejects the first registration and the pass returns
an immediate error with nothing registered — the remaining registration
(18:00) is never attempted and no aggregate result is produced. -/
theorem register_failure_aborts_counterexample :
    scheduleRepeatingNagTimes ⟨"m1", "stretch", 3, true, 300, 0, none⟩
        ⟨true, 3, 8, 22, 2⟩ (8 * hourMs) = [46800000, 64800000] ∧
      scheduleRepeatingNag (fun id => id == "nag-m1-46800000")
          ⟨"m1", "stretch", 3, true, 300, 0, none⟩ ⟨true, 3, 8, 22, 2⟩
          (8 * hourMs) [] =
        .error [] :=
  ⟨rfl, rfl⟩

/-- Witness for the amended C9: the same failing first registration,
applied through the abort theorem. -/
theorem register_failure_aborts_witness :
    ((fun id => id == "nag-m1-46800000")
        (nagId ⟨"m1", "stretch", 3, true, 300, 0, none⟩ 46800000) = true) ∧
      nagRegLoop (fun id => id == "nag-m1-46800000")
          ⟨"m1", "stretch", 3, true, 300, 0, none⟩ (46800000 :: [64800000]) [] =
        .error [] :=
  ⟨by decide,
    (register_failure_aborts (fun id => id == "nag-m1-46800000")).1
      ⟨"m1", "stretch", 3, true, 300, 0, none⟩ 46800000 [64800000] []
      (by decide)⟩

theorem wisdomLoop_pending (fails : String → Bool) (nowMs : ℕ) (draws : ℕ → ℚ) :
    ∀ (times : List ℕ) (k : ℕ) (w : World) (n : PendingNotif),
      n ∈ (resultWorld (wisdomLoop fails nowMs draws times k w)).pending →
      n ∈ w.pending ∨ jsStartsWith n.id "wisdom-" = true := by
  intro times
  induction times with
  | nil => intro k w n hn; exact Or.inl hn
  | cons t rest ih =>
    intro k w n hn
    simp only [wisdomLoop] at hn
    split at hn
    · exact ih (k + 1) w n hn
    · next msg hsel =>
      split at hn
      · next p heq =>
        simp only [createTriggerNotification] at heq
        split_ifs at heq with hf
        cases heq
        simp only [resultWorld] at hn
        exact Or.inl hn
      · next p heq =>
        simp only [createTriggerNotification] at heq
        split_ifs at heq with hf
        cases heq
        rcases ih (k + 1) _ n hn with h | h
        · rcases List.mem_append.mp h with h | h
          · exact Or.inl h
          · rcases List.mem_singleton.mp h with rfl
            exact Or.inr (wisdomId_startsWith t)
        · exact Or.inr h

theorem nagRegLoop_pending (fails : String → Bool) (m : Message) :
    ∀ (times : List ℕ) (pending : List PendingNotif) (n : PendingNotif),
      n ∈ resultPending (nagRegLoop fails m times pending) →
      n ∈ pending ∨ jsStartsWith n.id "nag-" = true := by
  intro times
  induction times with
  | nil => intro pending n hn; exact Or.inl hn
  | cons t rest ih =>
    intro pending n hn
    simp only [nagRegLoop] at hn
    split at hn
    · next p heq =>
      simp only [createTriggerNotification] at heq
      split_ifs at heq with hf
      cases heq
      simp only [resultPending] at hn
      exact Or.inl hn
    · next p heq =>
      simp only [createTriggerNotification] at heq
      split_ifs at heq with hf
      cases heq
      rcases ih _ n hn with h | h
      · rcases List.mem_append.mp h with h | h
        · exact Or.inl h
        · rcases List.mem_singleton.mp h with rfl
          exact Or.inr (nagId_startsWith m t)
      · exact Or.inr h

theorem nagMsgsLoop_pending (fails : String → Bool) (s : Settings) (nowMs : ℕ) :
    ∀ (msgs : List Message) (pending : List PendingNotif) (n : PendingNotif),
      n ∈ resultPending (nagMsgsLoop fails s nowMs msgs pending) →
      n ∈ pending ∨ jsStartsWith n.id "nag-" = true := by
  intro msgs
  induction msgs with
  | nil => intro pending n hn; exact Or.inl hn
  | cons m rest ih =>
    intro pending n hn
    simp only [nagMsgsLoop] at hn
    rcases hr : scheduleRepeatingNag fails m s nowMs pending with p | p
    · rw [hr] at hn
      have : n ∈ resultPending (nagRegLoop fails m
          (scheduleRepeatingNagTimes m s nowMs) pending) := by
        unfold scheduleRepeatingNag at hr
        rw [hr]
        exact hn
      exact nagRegLoop_pending fails m _ pending n this
    · rw [hr] at hn
      rcases ih p n hn with h | h
      · have : n ∈ resultPending (nagRegLoop fails m
            (scheduleRepeatingNagTimes m s nowMs) pending) := by
          unfold scheduleRepeatingNag at hr
          rw [hr]
          exact h
        exact nagRegLoop_pending fails m _ pending n this
      · exact Or.inr h

/-- C10: The two regeneration passes only create ids carrying their own
kind prefix — after a wisdom pass (completed or aborted) every pending
entry is either an old one or has a `wisdom-` id, after a nag pass either
an old one or a `nag-` id — and each cancel helper removes exactly the
pending entries carrying its own prefix, keeping every entry of the other
kind. -/
theorem kind_prefix_isolation :
    (∀ (fails : String → Bool) (offsets : ℕ → ℕ) (draws : ℕ → ℚ)
        (s : Settings) (nowMs : ℕ) (w : World) (n : PendingNotif),
      n ∈ (resultWorld
          (scheduleWisdomNotifications fails offsets draws s nowMs w)).pending →
      n ∈ w.pending ∨ jsStartsWith n.id "wisdom-" = true) ∧
    (∀ (fails : String → Bool) (s : Settings) (nowMs : ℕ) (w : World)
        (n : PendingNotif),
      n ∈ (resultWorld (scheduleNagNotifications fails s nowMs w)).pending →
      n ∈ w.pending ∨ jsStartsWith n.id "nag-" = true) ∧
    (∀ pending : List PendingNotif,
      cancelAllWisdomNotifications pending =
        pending.filter (fun n => !(jsStartsWith n.id "wisdom-")) ∧
      ∀ n ∈ pending, jsStartsWith n.id "nag-" = true →
        n ∈ cancelAllWisdomNotifications pending) ∧
    (∀ pending : List PendingNotif,
      cancelAllNagNotifications pending =
        pending.filter (fun n => !(jsStartsWith n.id "nag-")) ∧
      ∀ n ∈ pending, jsStartsWith n.id "wisdom-" = true →
        n ∈ cancelAllNagNotifications pending) := by
  refine ⟨?_, ?_, ?_, ?_⟩
  · intro fails offsets draws s nowMs w n hn
    simp only [scheduleWisdomNotifications] at hn
    split_ifs at hn with hdis
    · simp only [resultWorld, cancelAllWisdom_eq] at hn
      exact Or.inl (List.mem_filter.mp hn).1
    · rcases hl : wisdomLoop fails nowMs draws
          (calculateNotificationTimes s nowMs offsets) 0
          { w with pending := cancelAllWisdomNotifications w.pending } with
        w' | w'
      · rw [hl] at hn
        have : n ∈ (resultWorld (wisdomLoop fails nowMs draws
            (calculateNotificationTimes s nowMs offsets) 0
            { w with pending := cancelAllWisdomNotifications w.pending })).pending := by
          rw [hl]
          exact hn
        rcases wisdomLoop_pending fails nowMs draws _ 0 _ n this with h | h
        · rw [cancelAllWisdom_eq] at h
          exact Or.inl (List.mem_filter.mp h).1
        · exact Or.inr h
      · rw [hl] at hn
        have : n ∈ (resultWorld (wisdomLoop fails nowMs draws
            (calculateNotificationTimes s nowMs offsets) 0
            { w with pending := cancelAllWisdomNotifications w.pending })).pending := by
          rw [hl]
          exact hn
        rcases wisdomLoop_pending fails nowMs draws _ 0 _ n this with h | h
        · rw [cancelAllWisdom_eq] at h
          exact Or.inl (List.mem_filter.mp h).1
        · exact Or.inr h
  · intro fails s nowMs w n hn
    simp only [scheduleNagNotifications] at hn
    rcases hl : nagMsgsLoop fails s nowMs (w.messages.filter (fun m => m.isNagMe))
        (cancelAllNagNotifications w.pending) with p | p
    · rw [hl] at hn
      have : n ∈ resultPending (nagMsgsLoop fails s nowMs
          (w.messages.filter (fun m => m.isNagMe))
          (cancelAllNagNotifications w.pending)) := by
        rw [hl]
        exact hn
      rcases nagMsgsLoop_pending fails s nowMs _ _ n this with h | h
      · rw [cancelAllNag_eq] at h
        exact Or.inl (List.mem_filter.mp h).1
      · exact Or.inr h
    · rw [hl] at hn
      have : n ∈ resultPending (nagMsgsLoop fails s nowMs
          (w.messages.filter (fun m => m.isNagMe))
          (cancelAllNagNotifications w.pending)) := by
        rw [hl]
        exact hn
      rcases nagMsgsLoop_pending fails s nowMs _ _ n this with h | h
      · rw [cancelAllNag_eq] at h
        exact Or.inl (List.mem_filter.mp h).1
      · exact Or.inr h
  · intro pending
    refine ⟨cancelAllWisdom_eq pending, ?_⟩
    intro n hn hnag
    rw [cancelAllWisdom_eq]
    refine List.mem_filter.mpr ⟨hn, ?_⟩
    rw [not_wisdom_of_nag n.id hnag]
    rfl
  · intro pending
    refine ⟨cancelAllNag_eq pending, ?_⟩
    intro n hn hwis
    rw [cancelAllNag_eq]
    refine List.mem_filter.mpr ⟨hn, ?_⟩
    rw [not_nag_of_wisdom n.id hwis]
    rfl

/-- Witness for C10: a pending list holding one wisdom and one nag entry;
the nag entry survives `cancelAllWisdomNotifications`. -/
theorem kind_prefix_isolation_witness :
    (jsStartsWith "nag-m1-5" "nag-" = true) ∧
      (⟨"nag-m1-5", 5, "c", "d"⟩ : PendingNotif) ∈
        cancelAllWisdomNotifications
          [⟨"wisdom-77", 77, "a", "b"⟩, ⟨"nag-m1-5", 5, "c", "d"⟩] :=
  ⟨by decide,
    (kind_prefix_isolation.2.2.1
        [⟨"wisdom-77", 77, "a", "b"⟩, ⟨"nag-m1-5", 5, "c", "d"⟩]).2
      ⟨"nag-m1-5", 5, "c", "d"⟩ (by decide) (by decide)⟩
